import Mathlib

/-!  Shallow embedding of gg-config (src/main.go), an interactive
configuration wizard.  Three prompt loops collect global variables, file
descriptors and command hooks from a line oriented input stream; the result
is assembled into a Config value and serialized as JSON.

Modelling conventions:
* Standard input is a character stream (List Char).  A line read consumes
  exactly the characters of the line, which matches interactive (terminal)
  delivery of input where a read returns at most one typed line; the read
  ahead buffering that bufio.Scanner performs over a pipe is not modelled.
  A fmt.Scanf token read additionally consumes the one whitespace rune that
  terminated the token, which the discarded per call scan state buffered.
* Prompt printing has no effect on collected state and is not modelled.
* Loops take explicit fuel; every top level entry point passes
  (input length + 1), which always suffices because each iteration consumes
  at least one character of input.
* fmt.Scanf, bufio.Scanner, strconv and encoding/json are modelled from the
  documented behavior of the Go standard library, with two abstractions
  stated where they occur: IEEE-754 binary64 values are represented by the
  exact rational value of their source literal, and the ErrRange overflow
  and underflow failures of strconv.ParseFloat near the extremes of the
  binary64 range are not modelled.  No claim depends on float payloads.
-/

namespace GGConfig

/-- Whitespace as the Go standard library treats the ASCII range
(unicode.IsSpace restricted to ASCII, which covers every protocol token). -/
def goIsSpace (c : Char) : Bool :=
  c = ' ' || c = '\t' || c = '\n' || c = '\x0b' || c = '\x0c' || c = '\r'

/-- Cut a character list at every separator character, keeping empty
pieces, as strings.Split does for a one character separator. -/
def splitBy (p : Char → Bool) : List Char → List (List Char)
  | [] => [[]]
  | c :: t =>
    if p c then [] :: splitBy p t
    else
      match splitBy p t with
      | [] => [[c]]
      | h :: r => (c :: h) :: r

/-- strings.Split(line, " ") as processVariables uses it: split on every
single space character, keeping empty fields. -/
def goSplitSpace (s : String) : List String :=
  (splitBy (fun c => c = ' ') s.data).map List.asString

/-- strings.Fields: the whitespace separated fields of a line, with empty
fields dropped. -/
def goFields (s : String) : List String :=
  ((splitBy goIsSpace s.data).filter (fun l => l ≠ [])).map List.asString

/-- strconv.ParseBool: exactly the literal set accepted by Go. -/
def parseBool : String → Option Bool
  | "1" | "t" | "T" | "true" | "TRUE" | "True" => some true
  | "0" | "f" | "F" | "false" | "FALSE" | "False" => some false
  | _ => none

/-- Numeric value of a decimal digit string. -/
def digitsVal (l : List Char) : Nat :=
  l.foldl (fun acc c => 10 * acc + (c.toNat - 48)) 0

/-- strconv.ParseInt(v, 10, 64): optional sign, then at least one decimal
digit (underscore separators are rejected because the base is given
explicitly), and the value must fit a signed 64 bit integer.  Go checks
overflow digit by digit against a cutoff; computing the exact value first
and comparing it against the bounds is equivalent. -/
def parseInt64 (s : String) : Option Int :=
  match s.data with
  | [] => none
  | c :: rest =>
    let neg := c = '-'
    let ds := if c = '-' || c = '+' then rest else c :: rest
    if ds.isEmpty || !ds.all Char.isDigit then none
    else if neg then
      if digitsVal ds ≤ 2 ^ 63 then some (-(digitsVal ds : Int)) else none
    else
      if digitsVal ds ≤ 2 ^ 63 - 1 then some (digitsVal ds : Int) else none

/-- ASCII lower casing, as strconv applies to float specials and the base
prefix. -/
def lowerAscii (c : Char) : Char :=
  if 'A' ≤ c && c ≤ 'Z' then Char.ofNat (c.toNat + 32) else c

/-- Hexadecimal digit test. -/
def isHexDigit (c : Char) : Bool :=
  c.isDigit || ('a' ≤ lowerAscii c && lowerAscii c ≤ 'f')

/-- Scanning core of strconv underscoreOK: saw is the class of the previous
character, with circumflex for the start of the literal, the digit zero for
a digit, and the exclamation mark for any other character. -/
def underscoreScan (hex : Bool) : Char → List Char → Bool
  | saw, [] => saw != '_'
  | saw, c :: t =>
    if (if hex then isHexDigit c else c.isDigit) then underscoreScan hex '0' t
    else if c = '_' then saw == '0' && underscoreScan hex '_' t
    else saw != '_' && underscoreScan hex '!' t

/-- strconv underscoreOK: underscore separators must sit between digits (or
directly after the hexadecimal base prefix). -/
def underscoreOK (l : List Char) : Bool :=
  let l1 := match l with
    | c :: t => if c = '-' || c = '+' then t else l
    | [] => l
  match l1 with
  | '0' :: x :: t =>
    if lowerAscii x = 'x' then underscoreScan true '0' t
    else underscoreScan false '0' (x :: t)
  | _ => underscoreScan false '^' l1

/-- Result of strconv.ParseFloat.  The binary64 value is abstracted to the
exact rational value of the literal; no claim depends on float payloads. -/
inductive GoFloat where
  | finite (q : ℚ)
  | posInf
  | negInf
  | nan
deriving DecidableEq, Repr

/-- Digits of a mantissa in a given base, split at the optional dot:
returns the integer part digits and the fractional part digits, or none if
a second dot occurs or a non digit character appears. -/
def splitMantissa (digOK : Char → Bool) :
    List Char → Bool → List Char → List Char → Option (List Char × List Char)
  | [], _, ip, fp => some (ip.reverse, fp.reverse)
  | c :: t, sawDot, ip, fp =>
    if digOK c then
      if sawDot then splitMantissa digOK t sawDot ip (c :: fp)
      else splitMantissa digOK t sawDot (c :: ip) fp
    else if c = '.' then
      if sawDot then none else splitMantissa digOK t true ip fp
    else none

/-- Value of a digit, for bases up to 16. -/
def digValue (c : Char) : Nat :=
  if c.isDigit then c.toNat - 48 else (lowerAscii c).toNat - 87

/-- Numeric value of a digit string in a given base. -/
def baseVal (base : Nat) (l : List Char) : Nat :=
  l.foldl (fun acc c => base * acc + digValue c) 0

/-- Exponent part: optional sign then at least one decimal digit. -/
def parseExp (l : List Char) : Option Int :=
  match l with
  | [] => none
  | c :: t =>
    let neg := c = '-'
    let ds := if c = '-' || c = '+' then t else c :: t
    if ds.isEmpty || !ds.all Char.isDigit then none
    else if neg then some (-(digitsVal ds : Int)) else some (digitsVal ds : Int)

/-- Rational value of a mantissa and exponent over a given base for the
fractional scale and exponent scale. -/
def mantissaValue (digBase expBase : Nat) (ip fp : List Char) (e : Int) : ℚ :=
  ((baseVal digBase (ip ++ fp) : ℚ) / (digBase : ℚ) ^ (fp.length : Int)) *
    (expBase : ℚ) ^ e

/-- Decimal float body after the optional sign: digits with at most one
dot and at least one digit, then an optional decimal exponent. -/
def parseDecFloat (body : List Char) : Option ℚ :=
  let mant := body.takeWhile (fun c => c.isDigit || c = '.')
  let rest := body.dropWhile (fun c => c.isDigit || c = '.')
  match splitMantissa Char.isDigit mant false [] [] with
  | some (ip, fp) =>
    if ip.isEmpty && fp.isEmpty then none
    else
      match rest with
      | [] => some (mantissaValue 10 10 ip fp 0)
      | e :: et =>
        if lowerAscii e = 'e' then
          match parseExp et with
          | some ex => some (mantissaValue 10 10 ip fp ex)
          | none => none
        else none
  | none => none

/-- Hexadecimal float body after the sign and the 0x prefix: hex digits
with at most one dot and at least one digit, then a mandatory binary
exponent introduced by the letter p. -/
def parseHexFloat (t : List Char) : Option ℚ :=
  let mant := t.takeWhile (fun c => isHexDigit c || c = '.')
  let rest := t.dropWhile (fun c => isHexDigit c || c = '.')
  match splitMantissa isHexDigit mant false [] [], rest with
  | some (ip, fp), p :: et =>
    if (lowerAscii p = 'p') && !(ip.isEmpty && fp.isEmpty) then
      match parseExp et with
      | some e => some (mantissaValue 16 2 ip fp e)
      | none => none
    else none
  | _, _ => none

/-- strconv.ParseFloat(v, 64), syntax and exact value.  Accepts the case
insensitive specials inf and infinity after an optional sign and an
unsigned nan; otherwise an optional sign, then either a decimal mantissa
(digits with at most one dot and at least one digit) with an optional
decimal exponent, or a hexadecimal mantissa with a mandatory binary
exponent.  Underscore separators are allowed under the underscoreOK
placement rules and erased before the shape is examined.  The ErrRange
overflow and underflow failures near the extremes of binary64 are not
modelled, and rounding to binary64 is abstracted to the exact rational
value. -/
def parseGoFloat (s : String) : Option GoFloat :=
  let l := s.data
  let lower := l.map lowerAscii
  if lower = "nan".data then some .nan
  else if lower = "inf".data || lower = "infinity".data ||
      lower = "+inf".data || lower = "+infinity".data then some .posInf
  else if lower = "-inf".data || lower = "-infinity".data then some .negInf
  else if l.contains '_' && !underscoreOK l then none
  else
    let l := l.filter (fun c => c != '_')
    match l with
    | [] => none
    | c0 :: rest =>
      let neg := c0 = '-'
      let body := if c0 = '-' || c0 = '+' then rest else c0 :: rest
      let q? := match body with
        | '0' :: x :: t =>
          if lowerAscii x = 'x' then parseHexFloat t
          else parseDecFloat body
        | _ => parseDecFloat body
      match q? with
      | some q => some (.finite (if neg then -q else q))
      | none => none

/-- Scalar value stored for a collected token: the dynamic type Go gives
the value behind the interface in map[string]any. -/
inductive Value where
  | bool (b : Bool)
  | int (i : Int)
  | float (f : GoFloat)
  | str (s : String)
deriving DecidableEq, Repr

/-- format from main.go: sequential trial parsing with strconv.ParseBool,
then strconv.ParseInt base 10 bit size 64, then strconv.ParseFloat bit size
64, and finally the verbatim string. -/
def format (v : String) : Value :=
  match parseBool v with
  | some val => .bool val
  | none =>
    match parseInt64 v with
    | some val => .int val
    | none =>
      match parseGoFloat v with
      | some val => .float val
      | none => .str v

/-- Variable mapping as built by processVariables.  A Go map is unordered;
it is represented by an association list with unique keys in insertion
order, observable only through the key to value function (and through the
key sorted JSON encoding). -/
abbrev VarMap := List (String × Value)

/-- File record from main.go.  Local is None when the Go map is nil, which
is the case when no pair was ever added. -/
structure File where
  Name : String
  Path : String
  Template : String
  Local : Option VarMap
deriving DecidableEq, Repr

/-- Command record from main.go. -/
structure Command where
  Name : String
  Args : List String
deriving DecidableEq, Repr

/-- Config record from main.go.  Global is None when the Go map is nil. -/
structure Config where
  Global : Option VarMap
  Files : List File
  Cmds : List Command
deriving DecidableEq, Repr

/-- Map assignment result[k] = v on a possibly nil map, after the lazy
make: overwrite the binding if the key exists, otherwise append it. -/
def upsert (k : String) (v : Value) : VarMap → VarMap
  | [] => [(k, v)]
  | (k', v') :: t => if k = k' then (k, v) :: t else (k', v') :: upsert k v t

/-- Lazy initialisation plus assignment from processVariables: a nil map is
allocated on the first stored pair. -/
def mapInsert (m : Option VarMap) (k : String) (v : Value) : Option VarMap :=
  some (upsert k v (m.getD []))

/-- One line read by a bufio.Scanner with the default ScanLines split:
nothing at end of input, otherwise the text up to the first newline with
the newline and one trailing carriage return removed. -/
def readLine (s : List Char) : Option (String × List Char) :=
  if s.isEmpty then none
  else
    let line := s.takeWhile (fun c => c != '\n')
    let rest := (s.dropWhile (fun c => c != '\n')).drop 1
    let line := match line.getLast? with
      | some '\r' => line.dropLast
      | _ => line
    some (line.asString, rest)

/-- One token read by fmt.Scanf with the verb for a string: whitespace
before the token is skipped, but a newline (or a carriage return newline
pair) in that position is the error unexpected newline, and end of input is
an error; on success the token is the maximal run of characters that are
not whitespace.  The whitespace rune that terminates the token is read one
rune past the token and then unread into the scan state of the call; since
os.Stdin is no io.RuneScanner, that one rune buffer is discarded when the
call returns, so the delimiter rune is consumed from the stream (hence the
final drop).  This models the scan helper of main.go, whose only failure
modes are a Scanf error (the token count of Scanf with one verb is one
whenever no error occurs). -/
def scanToken (s : List Char) : Except String (String × List Char) :=
  let s1 := s.dropWhile (fun c => goIsSpace c && c != '\n')
  match s1 with
  | [] => .error "EOF"
  | '\n' :: _ => .error "unexpected newline"
  | _ =>
    .ok ((s1.takeWhile (fun c => !(goIsSpace c))).asString,
      (s1.dropWhile (fun c => !(goIsSpace c))).drop 1)

/-- The literal affirmative token. -/
def yes : String := "y"

/-- The literal negative token. -/
def no : String := "n"

/-- Loop body of processVariables from main.go: read a line; the
affirmative token continues, the negative token stops, any other line must
split on single spaces into exactly two tokens, whose value token is passed
through format and stored; end of input stops without error. -/
def processVarsLoop : Nat → List Char → Option VarMap →
    Except String (Option VarMap × List Char)
  | 0, _, _ => .error "out of fuel"
  | fuel + 1, s, acc =>
    match readLine s with
    | none => .ok (acc, [])
    | some (l, rest) =>
      if l = yes then processVarsLoop fuel rest acc
      else if l = no then .ok (acc, rest)
      else
        match goSplitSpace l with
        | [a, b] => processVarsLoop fuel rest (mapInsert acc a (format b))
        | _ => .error "incorrect number of tokens"

/-- processVariables from main.go (the prompt text only goes to standard
output and is dropped).  The fuel always suffices because every iteration
consumes at least one input character. -/
def processVariables (s : List Char) : Except String (Option VarMap × List Char) :=
  processVarsLoop (s.length + 1) s none

/-- readGlobals from main.go: processVariables with the global prompt and
the error wrapped. -/
def readGlobals (s : List Char) : Except String (Option VarMap × List Char) :=
  match processVariables s with
  | .ok r => .ok r
  | .error e => .error ("global variables: " ++ e)

/-- One pass of the readFiles cycle up to the append: three scanned tokens
for name, path and template, then the local variable sub protocol. -/
def readOneFile (s : List Char) : Except String (File × List Char) :=
  match scanToken s with
  | .error e => .error e
  | .ok (name, s1) =>
    match scanToken s1 with
    | .error e => .error e
    | .ok (path, s2) =>
      match scanToken s2 with
      | .error e => .error e
      | .ok (tmpl, s3) =>
        match processVariables s3 with
        | .error e => .error e
        | .ok (loc, s4) => .ok (⟨name, path, tmpl, loc⟩, s4)

/-- Cycle of readFiles from main.go: read one file record, append it, then
scan the add next file answer; the affirmative token continues, the
negative token breaks the cycle, and any other answer falls through the
switch and the loop continues. -/
def readFilesLoop : Nat → List Char → List File →
    Except String (List File × List Char)
  | 0, _, _ => .error "out of fuel"
  | fuel + 1, s, acc =>
    match readOneFile s with
    | .error e => .error ("file parameters: " ++ e)
    | .ok (f, s1) =>
      match scanToken s1 with
      | .error e => .error ("file parameters: " ++ e)
      | .ok (answer, s2) =>
        if answer = yes then readFilesLoop fuel s2 (acc ++ [f])
        else if answer = no then .ok (acc ++ [f], s2)
        else readFilesLoop fuel s2 (acc ++ [f])

/-- readFiles from main.go. -/
def readFiles (s : List Char) : Except String (List File × List Char) :=
  readFilesLoop (s.length + 1) s []

/-- Loop of readCommands from main.go: read a line; the affirmative token
continues, the negative token stops, any other line is split into
whitespace separated fields, of which there must be at least one, the first
being the command name and the rest its arguments; end of input stops
without error. -/
def readCommandsLoop : Nat → List Char → List Command →
    Except String (List Command × List Char)
  | 0, _, _ => .error "out of fuel"
  | fuel + 1, s, acc =>
    match readLine s with
    | none => .ok (acc, [])
    | some (l, rest) =>
      if l = yes then readCommandsLoop fuel rest acc
      else if l = no then .ok (acc, rest)
      else
        match goFields l with
        | [] => .error "incorrect command declaration length"
        | name :: args => readCommandsLoop fuel rest (acc ++ [⟨name, args⟩])

/-- readCommands from main.go. -/
def readCommands (s : List Char) : Except String (List Command × List Char) :=
  readCommandsLoop (s.length + 1) s []

/-- The collection part of main: the three stages run in order over the
input stream, each feeding the Config under assembly; the first error stops
the run. -/
def collectConfig (s : List Char) : Except String Config :=
  match readGlobals s with
  | .error e => .error e
  | .ok (g, s1) =>
    match readFiles s1 with
    | .error e => .error e
    | .ok (fs, s2) =>
      match readCommands s2 with
      | .error e => .error e
      | .ok (cs, _) => .ok ⟨g, fs, cs⟩

/-- Key order used by the JSON encoding of a Go map: encoding/json writes
map entries sorted by key byte wise, which agrees with code point order on
UTF-8 strings. -/
def keyLe (p q : String × Value) : Prop := p.1 ≤ q.1

instance : DecidableRel keyLe := fun p q => inferInstanceAs (Decidable (p.1 ≤ q.1))

instance : IsTotal (String × Value) keyLe := ⟨fun p q => le_total p.1 q.1⟩

instance : IsTrans (String × Value) keyLe := ⟨fun _ _ _ h1 h2 => le_trans h1 h2⟩

/-- Entries of a variable mapping in the key order of the JSON encoder. -/
def sortVarMap (m : VarMap) : VarMap := List.insertionSort keyLe m

/-- JSON document tree.  A number is kept as its exact rational value; the
text layer, which writes and reads numbers in decimal, is not modelled. -/
inductive JVal where
  | null
  | bool (b : Bool)
  | num (q : ℚ)
  | str (s : String)
  | arr (xs : List JVal)
  | obj (fields : List (String × JVal))

/-- encoding/json on one collected scalar behind the interface type:
booleans, strings and both numeric types become JSON scalars; json.Marshal
fails on the infinities and on NaN (unsupported value). -/
def encodeValue : Value → Option JVal
  | .bool b => some (.bool b)
  | .int i => some (.num (i : ℚ))
  | .float (.finite q) => some (.num q)
  | .float _ => none
  | .str s => some (.str s)

/-- Entries of the JSON object for a map, in encoder key order. -/
def encodeEntries : VarMap → Option (List (String × JVal))
  | [] => some []
  | (k, v) :: t =>
    match encodeValue v, encodeEntries t with
    | some j, some r => some ((k, j) :: r)
    | _, _ => none

/-- encoding/json on a possibly nil map[string]any without omitempty: a nil
map becomes null, otherwise an object with key sorted entries. -/
def encodeOptMap : Option VarMap → Option JVal
  | none => some .null
  | some m => (encodeEntries (sortVarMap m)).map .obj

/-- encoding/json on a File value: all four fields are emitted, in struct
order, and none carries omitempty. -/
def encodeFile (f : File) : Option JVal :=
  match encodeOptMap f.Local with
  | some lj =>
    some (.obj [("name", .str f.Name), ("path", .str f.Path),
      ("template", .str f.Template), ("local", lj)])
  | none => none

/-- encoding/json on a list of File values. -/
def encodeFiles : List File → Option (List JVal)
  | [] => some []
  | f :: t =>
    match encodeFile f, encodeFiles t with
    | some j, some r => some (j :: r)
    | _, _ => none

/-- encoding/json on a Command value: both fields emitted in struct order;
Args always comes from a slice expression and is never nil, so it encodes
as an array. -/
def encodeCommand (c : Command) : JVal :=
  .obj [("name", .str c.Name), ("args", .arr (c.Args.map .str))]

/-- encoding/json on a Config value: global has no omitempty and is always
present (null for a nil map), while files and commands carry omitempty and
are dropped when their slices are empty or nil. -/
def encodeConfig (c : Config) : Option JVal :=
  match encodeOptMap c.Global, encodeFiles c.Files with
  | some gj, some fjs =>
    some (.obj (("global", gj) ::
      ((if c.Files.isEmpty then [] else [("files", JVal.arr fjs)]) ++
        (if c.Cmds.isEmpty then []
         else [("commands", JVal.arr (c.Cmds.map encodeCommand))]))))
  | _, _ => none

/-- Field lookup in a JSON object.  json.Unmarshal matches struct field
names case insensitively and lets a later duplicate key win; the decoder
reads the first exact match, which agrees with Go on every document the
encoder produces (unique keys with exact spelling). -/
def lookupField (k : String) : List (String × JVal) → Option JVal
  | [] => none
  | (k', v) :: t => if k = k' then some v else lookupField k t

/-- json.Unmarshal of one JSON value into the interface type inside
map[string]any: a boolean stays a boolean, a string stays a string, and
every number becomes a float64 regardless of its spelling.  JSON null,
arrays and objects in that position unmarshal to values outside the scalar
Value type of this development and are mapped to none; the encoder never
produces them there. -/
def decodeAny : JVal → Option Value
  | .bool b => some (.bool b)
  | .num q => some (.float (.finite q))
  | .str s => some (.str s)
  | _ => none

/-- json.Unmarshal of the entries of a JSON object into map[string]any,
keeping the entry order of the document. -/
def decodeEntries : List (String × JVal) → Option VarMap
  | [] => some []
  | (k, j) :: t =>
    match decodeAny j, decodeEntries t with
    | some v, some r => some ((k, v) :: r)
    | _, _ => none

/-- json.Unmarshal into a possibly nil map field: an absent field keeps the
zero value nil, null stores nil, an object stores the decoded map, and any
other value is a type error. -/
def decodeOptMap : Option JVal → Option (Option VarMap)
  | none => some none
  | some .null => some none
  | some (.obj l) => (decodeEntries l).map some
  | some _ => none

/-- json.Unmarshal into a string field: an absent field keeps the zero
value, a JSON string is stored, anything else is a type error. -/
def decodeStringField : Option JVal → Option String
  | none => some ""
  | some (.str s) => some s
  | some _ => none

/-- json.Unmarshal into a File value. -/
def decodeFile : JVal → Option File
  | .obj l =>
    match decodeStringField (lookupField "name" l),
        decodeStringField (lookupField "path" l),
        decodeStringField (lookupField "template" l),
        decodeOptMap (lookupField "local" l) with
    | some n, some p, some t, some loc => some ⟨n, p, t, loc⟩
    | _, _, _, _ => none
  | _ => none

/-- json.Unmarshal of a JSON array into a slice of File values. -/
def decodeFileList : List JVal → Option (List File)
  | [] => some []
  | j :: t =>
    match decodeFile j, decodeFileList t with
    | some f, some r => some (f :: r)
    | _, _ => none

/-- json.Unmarshal of a JSON array of strings. -/
def decodeStringList : List JVal → Option (List String)
  | [] => some []
  | .str s :: t => (decodeStringList t).map (s :: ·)
  | _ => none

/-- json.Unmarshal into a Command value: an absent or null args field keeps
a nil slice, indistinguishable from an empty one in this model. -/
def decodeCommand : JVal → Option Command
  | .obj l =>
    match decodeStringField (lookupField "name" l), lookupField "args" l with
    | some n, none => some ⟨n, []⟩
    | some n, some .null => some ⟨n, []⟩
    | some n, some (.arr xs) => (decodeStringList xs).map (⟨n, ·⟩)
    | _, _ => none
  | _ => none

/-- json.Unmarshal of a JSON array into a slice of Command values. -/
def decodeCommandList : List JVal → Option (List Command)
  | [] => some []
  | j :: t =>
    match decodeCommand j, decodeCommandList t with
    | some c, some r => some (c :: r)
    | _, _ => none

/-- json.Unmarshal into a slice field: absent or null keeps the zero value
nil, an array decodes element wise, anything else is a type error. -/
def decodeFilesField : Option JVal → Option (List File)
  | none => some []
  | some .null => some []
  | some (.arr xs) => decodeFileList xs
  | some _ => none

/-- json.Unmarshal into the commands slice field. -/
def decodeCommandsField : Option JVal → Option (List Command)
  | none => some []
  | some .null => some []
  | some (.arr xs) => decodeCommandList xs
  | some _ => none

/-- json.Unmarshal of a document into a Config value. -/
def decodeConfig : JVal → Option Config
  | .obj l =>
    match decodeOptMap (lookupField "global" l),
        decodeFilesField (lookupField "files" l),
        decodeCommandsField (lookupField "commands" l) with
    | some g, some fs, some cs => some ⟨g, fs, cs⟩
    | _, _, _ => none
  | _ => none

/-- File with its local mapping brought into encoder key order. -/
def normalizeFile (f : File) : File :=
  ⟨f.Name, f.Path, f.Template, f.Local.map sortVarMap⟩

/-- Config with every mapping brought into encoder key order.  Two Config
values are structurally identical in the sense of the round trip property
(equal mappings as maps, equal sequences in order, equal scalar values and
dynamic types) exactly when their normal forms are equal. -/
def normalizeConfig (c : Config) : Config :=
  ⟨c.Global.map sortVarMap, c.Files.map normalizeFile, c.Cmds⟩

/-- Structural identity of two Config values: the mappings agree as maps,
the sequences agree in order, and every scalar agrees in dynamic type and
value. -/
def structEq (a b : Config) : Prop := normalizeConfig a = normalizeConfig b

/-- main from main.go after flag parsing.  pathGiven states whether an
output flag was supplied and createFails whether os.Create fails on that
path.  The first component is the document written (to standard output or
to the file), the second the process exit status.  A collection error is
logged and the process exits with status one through os.Exit, which skips
the deferred output writer, so no document at all is produced.  Inside the
deferred writer a failed os.Create is log.Fatalln, which also exits with
status one; an encoding failure is only logged and leaves the exit status
zero. -/
def runMain (pathGiven createFails : Bool) (input : List Char) :
    Option JVal × Nat :=
  match collectConfig input with
  | .error _ => (none, 1)
  | .ok cfg =>
    if pathGiven && createFails then (none, 1)
    else
      match encodeConfig cfg with
      | some j => (some j, 0)
      | none => (none, 0)

instance (a b : Config) : Decidable (structEq a b) :=
  inferInstanceAs (Decidable (normalizeConfig a = normalizeConfig b))

/-! Supporting lemmas. -/

theorem dropWhile_length_le {α : Type} (p : α → Bool) (l : List α) :
    (l.dropWhile p).length ≤ l.length := by
  induction l with
  | nil => simp
  | cons c t ih =>
    rw [List.dropWhile_cons]
    split
    · exact Nat.le_succ_of_le ih
    · exact Nat.le_refl _

theorem readLine_length {s : List Char} {l : String} {rest : List Char}
    (h : readLine s = some (l, rest)) : rest.length < s.length := by
  unfold readLine at h
  cases s with
  | nil => simp at h
  | cons c t =>
    rw [if_neg (by simp)] at h
    simp only [Option.some.injEq, Prod.mk.injEq] at h
    obtain ⟨-, hrest⟩ := h
    have hd := dropWhile_length_le (fun c => c != '\n') (c :: t)
    match he : (c :: t).dropWhile (fun c => c != '\n') with
    | [] => rw [← hrest, he]; simp
    | x :: xs =>
      rw [← hrest, he]
      rw [he] at hd
      simp only [List.drop_one, List.tail_cons]
      simp only [List.length_cons] at hd ⊢
      omega

theorem processVarsLoop_fuel {f1 f2 : Nat} {s : List Char} {acc : Option VarMap}
    (h1 : s.length < f1) (h2 : s.length < f2) :
    processVarsLoop f1 s acc = processVarsLoop f2 s acc := by
  induction f1 generalizing f2 s acc with
  | zero => omega
  | succ f1 ih =>
    match f2, h2 with
    | f2 + 1, h2 =>
      simp only [processVarsLoop]
      match hr : readLine s with
      | none => rfl
      | some (l, rest) =>
        have hlen := readLine_length hr
        by_cases hy : l = yes
        · simp only [if_pos hy]
          exact ih (by omega) (by omega)
        · by_cases hn : l = no
          · simp only [if_neg hy, if_pos hn]
          · simp only [if_neg hy, if_neg hn]
            match goSplitSpace l with
            | [a, b] => exact ih (by omega) (by omega)
            | [] => rfl
            | [a] => rfl
            | a :: b :: c :: t => rfl

/-! Claim C1.  The spec side integer pattern, stated from the words of the
claim for comparison with the inference of format. -/

/-- Modelled from the claim wording: a token matching the regular
expression that allows an optional leading minus sign followed by one or
more decimal digits. -/
def specIntegerToken (s : String) : Bool :=
  match s.data with
  | [] => false
  | c :: rest =>
    if c = '-' then !rest.isEmpty && rest.all Char.isDigit
    else (c :: rest).all Char.isDigit

/-- Mathematical value of a token matching the integer pattern. -/
def decimalValue (s : String) : Int :=
  match s.data with
  | [] => 0
  | c :: rest =>
    if c = '-' then -(digitsVal rest : Int) else (digitsVal (c :: rest) : Int)

theorem parseBool_eq_none {s : String}
    (h1 : s ≠ "1") (ht : s ≠ "t") (hT : s ≠ "T") (htr : s ≠ "true")
    (hTR : s ≠ "TRUE") (hTr : s ≠ "True") (h0 : s ≠ "0") (hf : s ≠ "f")
    (hF : s ≠ "F") (hfa : s ≠ "false") (hFA : s ≠ "FALSE")
    (hFa : s ≠ "False") : parseBool s = none := by
  unfold parseBool
  split
  all_goals simp_all

theorem specIntegerToken_ne {s : String} (hp : specIntegerToken s = true)
    (t : String) (ht : specIntegerToken t = false) : s ≠ t := by
  intro h
  rw [h] at hp
  rw [hp] at ht
  exact Bool.noConfusion ht

/-- C1 (amended): for every token matching the integer pattern whose value
fits a signed 64 bit integer, with the exception of the two digit strings 0
and 1, which strconv.ParseBool claims first and turns into booleans, the
inference of format yields the integer value of the token, not a float and
not a string. -/
theorem C1_integer_inference (s : String) (hp : specIntegerToken s = true)
    (h0 : s ≠ "0") (h1 : s ≠ "1")
    (hlo : -(2 ^ 63) ≤ decimalValue s) (hhi : decimalValue s ≤ 2 ^ 63 - 1) :
    format s = Value.int (decimalValue s) := by
  have hb : parseBool s = none := by
    refine parseBool_eq_none h1 ?_ ?_ ?_ ?_ ?_ h0 ?_ ?_ ?_ ?_ ?_ <;>
      exact specIntegerToken_ne hp _ (by decide)
  have hi : parseInt64 s = some (decimalValue s) := by
    obtain ⟨l⟩ := s
    unfold specIntegerToken at hp
    unfold decimalValue at hlo hhi ⊢
    unfold parseInt64
    match l with
    | [] => simp at hp
    | c :: rest =>
      simp only at hp hlo hhi ⊢
      by_cases hc : c = '-'
      · rw [if_pos hc] at hp hlo hhi ⊢
        rw [Bool.and_eq_true, Bool.not_eq_true'] at hp
        have hrange : digitsVal rest ≤ 2 ^ 63 := by omega
        simp [hc, hp.1, hp.2]
        omega
      · rw [if_neg hc] at hp hlo hhi ⊢
        have hcp : c ≠ '+' := by
          intro hp'
          rw [List.all_cons, Bool.and_eq_true] at hp
          rw [hp'] at hp
          exact absurd hp.1 (by decide)
        have hrange : digitsVal (c :: rest) ≤ 2 ^ 63 - 1 := by omega
        simp [hc, hcp, hp]
        omega
  unfold format
  rw [hb, hi]

/-- C1 is false as stated: the token 1 matches the integer pattern and its
value fits a signed 64 bit integer, yet format classifies it as the boolean
true rather than as an integer, because strconv.ParseBool is tried first;
accordingly the session with the input lines x 1 and n stores the boolean
true, not the integer one, under x. -/
theorem C1_counterexample :
    specIntegerToken "1" = true ∧
    (-(2 ^ 63) : Int) ≤ decimalValue "1" ∧ decimalValue "1" ≤ 2 ^ 63 - 1 ∧
    format "1" = Value.bool true ∧
    Value.bool true ≠ Value.int 1 ∧
    processVariables ("x 1\nn\n".data) = .ok (some [("x", Value.bool true)], []) :=
  ⟨by decide, by decide, by decide, by decide, by decide, rfl⟩

/-- C1 amended claim checked at the concrete token 42. -/
theorem C1_integer_inference_witness :
    specIntegerToken "42" = true ∧ "42" ≠ "0" ∧ "42" ≠ "1" ∧
    (-(2 ^ 63) : Int) ≤ decimalValue "42" ∧ decimalValue "42" ≤ 2 ^ 63 - 1 ∧
    format "42" = Value.int (decimalValue "42") :=
  ⟨by decide, by decide, by decide, by decide, by decide,
    C1_integer_inference "42" (by decide) (by decide) (by decide) (by decide)
      (by decide)⟩

/-- C2: in the variable collection loop, a line that is neither control
token either splits on single spaces into exactly a name token and a value
token, which are stored through format, or hits the fatal token count error
that aborts the run; there is no third outcome. -/
theorem C2_two_tokens_or_fatal (fuel : Nat) (s rest : List Char) (l : String)
    (acc : Option VarMap) (hr : readLine s = some (l, rest))
    (hy : l ≠ yes) (hn : l ≠ no) :
    (∃ a b, goSplitSpace l = [a, b] ∧
      processVarsLoop (fuel + 1) s acc =
        processVarsLoop fuel rest (mapInsert acc a (format b))) ∨
    ((goSplitSpace l).length ≠ 2 ∧
      processVarsLoop (fuel + 1) s acc = .error "incorrect number of tokens") := by
  simp only [processVarsLoop, hr]
  rw [if_neg hy, if_neg hn]
  cases hsp : goSplitSpace l with
  | nil => exact .inr ⟨by simp, by simp [hsp]⟩
  | cons a t1 =>
    cases t1 with
    | nil => exact .inr ⟨by simp, by simp [hsp]⟩
    | cons b t2 =>
      cases t2 with
      | nil => exact .inl ⟨a, b, rfl, by simp [hsp]⟩
      | cons c t3 =>
        refine .inr ⟨?_, by simp [hsp]⟩
        simp only [List.length_cons]
        omega

/-- C2 checked at the concrete line a b with one following line. -/
theorem C2_two_tokens_or_fatal_witness :
    readLine ("a b\nn\n".data) = some ("a b", "n\n".data) ∧ "a b" ≠ yes ∧
    "a b" ≠ no ∧
    ((∃ a b, goSplitSpace "a b" = [a, b] ∧
      processVarsLoop 2 ("a b\nn\n".data) none =
        processVarsLoop 1 ("n\n".data) (mapInsert none a (format b))) ∨
    ((goSplitSpace "a b").length ≠ 2 ∧
      processVarsLoop 2 ("a b\nn\n".data) none =
        .error "incorrect number of tokens")) :=
  ⟨rfl, by decide, by decide,
    C2_two_tokens_or_fatal 1 _ _ _ none rfl (by decide) (by decide)⟩

/-- C7: a line equal to the affirmative token read by the variable
collection loop is skipped as a continue signal and never stored, so
collection gives the same result as if the line were absent from the
input. -/
theorem C7_affirmative_line_skipped (s rest : List Char)
    (hr : readLine s = some (yes, rest)) :
    processVariables s = processVariables rest := by
  have hlen := readLine_length hr
  unfold processVariables
  calc processVarsLoop (s.length + 1) s none
      = processVarsLoop s.length rest none := by
        simp [processVarsLoop, hr]
    _ = processVarsLoop (rest.length + 1) rest none :=
        processVarsLoop_fuel (by omega) (by omega)

/-- C7 checked with the affirmative token as the very first input line. -/
theorem C7_affirmative_line_skipped_witness :
    readLine ("y\nx 2\nn\n".data) = some (yes, "x 2\nn\n".data) ∧
    processVariables ("y\nx 2\nn\n".data) = processVariables ("x 2\nn\n".data) :=
  ⟨rfl, C7_affirmative_line_skipped _ _ rfl⟩

/-- C5: a non control command line is split into whitespace separated
fields, the first being recorded as the command name and the remaining
fields, possibly none, in order as its arguments, after which the loop
continues. -/
theorem C5_command_split (fuel : Nat) (s rest : List Char) (l : String)
    (acc : List Command) (name : String) (args : List String)
    (hr : readLine s = some (l, rest)) (hy : l ≠ yes) (hn : l ≠ no)
    (hf : goFields l = name :: args) :
    readCommandsLoop (fuel + 1) s acc =
      readCommandsLoop fuel rest (acc ++ [⟨name, args⟩]) := by
  simp only [readCommandsLoop, hr]
  rw [if_neg hy, if_neg hn, hf]

/-- C5 checked at the concrete session of the spec example. -/
theorem C5_command_split_witness :
    readLine ("ls -a -l\nn\n".data) = some ("ls -a -l", "n\n".data) ∧
    goFields "ls -a -l" = ["ls", "-a", "-l"] ∧
    readCommandsLoop 2 ("ls -a -l\nn\n".data) [] =
      readCommandsLoop 1 ("n\n".data) ([] ++ [⟨"ls", ["-a", "-l"]⟩]) ∧
    readCommands ("ls -a -l\nn\n".data) = .ok ([⟨"ls", ["-a", "-l"]⟩], []) :=
  ⟨rfl, rfl,
    C5_command_split 1 _ _ _ [] "ls" ["-a", "-l"] rfl (by decide) (by decide) rfl,
    rfl⟩

/-! Input line encodings, used to quantify over line shaped input. -/

/-- Character stream of a list of input lines, each newline terminated. -/
def linesToChars (ls : List String) : List Char :=
  (ls.map (fun l => l.data ++ ['\n'])).flatten

/-- A line as the scanner returns one: free of newline and carriage return
characters. -/
def plainLine (l : String) : Prop := '\n' ∉ l.data ∧ '\r' ∉ l.data

theorem takeWhile_all_append {p : Char → Bool} (l t : List Char)
    (h : ∀ c ∈ l, p c = true) : (l ++ t).takeWhile p = l ++ t.takeWhile p := by
  induction l with
  | nil => simp
  | cons c cs ih =>
    simp only [List.cons_append, List.takeWhile_cons, h c (by simp), if_true]
    rw [ih (fun c hc => h c (by simp [hc]))]

theorem dropWhile_all_append {p : Char → Bool} (l t : List Char)
    (h : ∀ c ∈ l, p c = true) : (l ++ t).dropWhile p = t.dropWhile p := by
  induction l with
  | nil => simp
  | cons c cs ih =>
    simp only [List.cons_append, List.dropWhile_cons, h c (by simp), if_true]
    exact ih (fun c hc => h c (by simp [hc]))

theorem readLine_encoded {l : String} {rest : List Char} (hp : plainLine l) :
    readLine (l.data ++ '\n' :: rest) = some (l, rest) := by
  have hne : ∀ c ∈ l.data, ((fun c => c != '\n') c = true) := by
    intro c hc
    simp only [bne_iff_ne, ne_eq]
    exact fun h => hp.1 (h ▸ hc)
  have ht : (l.data ++ '\n' :: rest).takeWhile (fun c => c != '\n') = l.data := by
    rw [takeWhile_all_append _ _ hne]
    simp
  have hd : (l.data ++ '\n' :: rest).dropWhile (fun c => c != '\n') = '\n' :: rest := by
    rw [dropWhile_all_append _ _ hne]
    simp
  unfold readLine
  rw [if_neg (by simp)]
  simp only [ht, hd, List.drop_one, List.tail_cons]
  split
  · rename_i heq
    have hmem : '\r' ∈ l.data := by
      obtain ⟨hne', hx⟩ := List.mem_getLast?_eq_getLast
        (show '\r' ∈ l.data.getLast? by rw [heq]; rfl)
      rw [hx]
      exact List.getLast_mem hne'
    exact absurd hmem hp.2
  · rfl

theorem linesToChars_length (ls : List String) :
    ls.length ≤ (linesToChars ls).length := by
  induction ls with
  | nil => simp [linesToChars]
  | cons l t ih =>
    simp only [linesToChars, List.map_cons, List.flatten_cons,
      List.length_append, List.length_cons] at ih ⊢
    omega

/-- Running the command loop over well formed lines of which none stops the
loop, followed by a line with zero fields, always ends in the token count
error. -/
theorem readCommandsLoop_bad_line (good : List String) :
    ∀ (fuel : Nat) (acc : List Command) (bad : String) (suffix : List Char),
    (∀ l ∈ good, plainLine l ∧ l ≠ no ∧ (l = yes ∨ goFields l ≠ [])) →
    plainLine bad → bad ≠ yes → bad ≠ no → goFields bad = [] →
    good.length < fuel →
    readCommandsLoop fuel (linesToChars (good ++ [bad]) ++ suffix) acc =
      .error "incorrect command declaration length" := by
  induction good with
  | nil =>
    intro fuel acc bad suffix _ hbp hby hbn hbf hfuel
    match fuel, hfuel with
    | fuel + 1, _ =>
      have henc : linesToChars [bad] ++ suffix = bad.data ++ '\n' :: suffix := by
        simp [linesToChars]
      rw [List.nil_append, henc]
      simp only [readCommandsLoop, readLine_encoded hbp]
      rw [if_neg hby, if_neg hbn, hbf]
  | cons l t ih =>
    intro fuel acc bad suffix hgood hbp hby hbn hbf hfuel
    match fuel, hfuel with
    | fuel + 1, hfuel =>
      have henc : linesToChars ((l :: t) ++ [bad]) ++ suffix =
          l.data ++ '\n' :: (linesToChars (t ++ [bad]) ++ suffix) := by
        simp [linesToChars]
      obtain ⟨hlp, hln, hly⟩ := hgood l (by simp)
      have hgood' : ∀ x ∈ t, plainLine x ∧ x ≠ no ∧ (x = yes ∨ goFields x ≠ []) :=
        fun x hx => hgood x (by simp [hx])
      rw [henc]
      simp only [readCommandsLoop, readLine_encoded hlp]
      by_cases hy : l = yes
      · rw [if_pos hy]
        exact ih fuel acc bad suffix hgood' hbp hby hbn hbf (by simpa using hfuel)
      · rw [if_neg hy, if_neg hln]
        have hnz : goFields l ≠ [] := by
          rcases hly with h | h
          · exact absurd h hy
          · exact h
        cases hf : goFields l with
        | nil => exact absurd hf hnz
        | cons name args =>
          exact ih fuel _ bad suffix hgood' hbp hby hbn hbf (by simpa using hfuel)

/-- C4: when the command collector reads a line with zero whitespace fields
before any stop token, after the two earlier stages have succeeded, the
whole run fails with the input shape error: the process exits with status
one and, since os.Exit skips the deferred writer, no output document is
produced at all. -/
theorem C4_empty_command_line_fatal (pathGiven createFails : Bool)
    (s s1 s2 : List Char) (g : Option VarMap) (fs : List File)
    (good : List String) (bad : String) (suffix : List Char)
    (hg : readGlobals s = .ok (g, s1))
    (hf : readFiles s1 = .ok (fs, s2))
    (hs2 : s2 = linesToChars (good ++ [bad]) ++ suffix)
    (hgood : ∀ l ∈ good, plainLine l ∧ l ≠ no ∧ (l = yes ∨ goFields l ≠ []))
    (hbp : plainLine bad) (hby : bad ≠ yes) (hbn : bad ≠ no)
    (hbf : goFields bad = []) :
    runMain pathGiven createFails s = (none, 1) := by
  have hcmd : readCommands s2 = .error "incorrect command declaration length" := by
    unfold readCommands
    rw [hs2]
    refine readCommandsLoop_bad_line good _ [] bad suffix hgood hbp hby hbn hbf ?_
    have h1 := linesToChars_length (good ++ [bad])
    simp only [List.length_append, List.length_cons, List.length_nil] at h1 ⊢
    omega
  simp only [runMain, collectConfig, hg, hf, hcmd]

/-- C4 checked on a concrete full interactive session whose command input
starts with an empty line. -/
theorem C4_empty_command_line_fatal_witness :
    readGlobals ("n\na\nb\nc\nn\nn\n\n".data) =
      .ok (none, "a\nb\nc\nn\nn\n\n".data) ∧
    readFiles ("a\nb\nc\nn\nn\n\n".data) =
      .ok ([⟨"a", "b", "c", none⟩], "\n".data) ∧
    goFields "" = [] ∧
    runMain false false ("n\na\nb\nc\nn\nn\n\n".data) = (none, 1) :=
  ⟨rfl, rfl, rfl,
    C4_empty_command_line_fatal false false _ _ _ none _ [] "" [] rfl rfl rfl
      (by intro l hl; cases hl) (by simp [plainLine]) (by decide) (by decide)
      rfl⟩

/-- C3 (amended): once the three collection stages succeed, an encoding
failure while producing the output is only logged and leaves the exit
status zero; but when an output path was supplied and the destination file
cannot be created, log.Fatalln terminates the process with status one,
contrary to the claim as stated. -/
theorem C3_output_error_handling (pathGiven createFails : Bool)
    (s : List Char) (cfg : Config) (h : collectConfig s = .ok cfg) :
    ((pathGiven && createFails) = true →
      runMain pathGiven createFails s = (none, 1)) ∧
    ((pathGiven && createFails) = false →
      (runMain pathGiven createFails s).2 = 0) := by
  unfold runMain
  rw [h]
  constructor
  · intro hc
    rw [hc]
    simp
  · intro hc
    rw [hc]
    simp only [Bool.false_eq_true, if_false]
    cases encodeConfig cfg <;> rfl

/-- C3 is false as stated: on a run whose collection succeeds, a failing
os.Create of the output destination terminates the process with exit
status one through log.Fatalln, instead of being only logged. -/
theorem C3_counterexample :
    collectConfig ("n\na\nb\nc\nn\nn\nn\n".data) =
      .ok ⟨none, [⟨"a", "b", "c", none⟩], []⟩ ∧
    runMain true true ("n\na\nb\nc\nn\nn\nn\n".data) = (none, 1) ∧
    (1 : Nat) ≠ 0 :=
  ⟨rfl, rfl, by decide⟩

/-- C3 amended claim checked on a concrete successful session writing to
standard output. -/
theorem C3_output_error_handling_witness :
    collectConfig ("n\na\nb\nc\nn\nn\nn\n".data) =
      .ok ⟨none, [⟨"a", "b", "c", none⟩], []⟩ ∧
    (((false && false) = true →
      runMain false false ("n\na\nb\nc\nn\nn\nn\n".data) = (none, 1)) ∧
     ((false && false) = false →
      (runMain false false ("n\na\nb\nc\nn\nn\nn\n".data)).2 = 0)) :=
  ⟨rfl, C3_output_error_handling false false _ _ rfl⟩

theorem dropWhile_head_not {α : Type} (p : α → Bool) (l : List α) {c : α}
    {cs : List α} (h : l.dropWhile p = c :: cs) : p c = false := by
  induction l with
  | nil => simp at h
  | cons a t ih =>
    rw [List.dropWhile_cons] at h
    by_cases hp : p a = true
    · rw [if_pos hp] at h
      exact ih h
    · rw [if_neg hp] at h
      injection h with h1 h2
      subst h1
      exact (Bool.not_eq_true _) ▸ hp

theorem scanToken_ne_empty {s : List Char} {t : String} {rest : List Char}
    (h : scanToken s = .ok (t, rest)) : t ≠ "" := by
  unfold scanToken at h
  dsimp only at h
  split at h
  next => exact Except.noConfusion h
  next => exact Except.noConfusion h
  next s1 hnil hnl =>
    match hd : s.dropWhile (fun c => goIsSpace c && c != '\n') with
    | [] => exact absurd hd hnil
    | c :: cs =>
      have hc : c ≠ '\n' := fun hcn => hnl cs (hcn ▸ hd)
      have hps := dropWhile_head_not _ _ hd
      have hbne : (c != '\n') = true := bne_iff_ne.mpr hc
      rw [hbne, Bool.and_true] at hps
      rw [hd, List.takeWhile_cons, hps] at h
      simp only [Bool.not_false, if_true] at h
      simp only [Except.ok.injEq, Prod.mk.injEq] at h
      obtain ⟨h1, h2⟩ := h
      subst h1
      intro hcontra
      have hdata := congrArg String.data hcontra
      simp [List.asString] at hdata

theorem readOneFile_fields {s : List Char} {f : File} {rest : List Char}
    (h : readOneFile s = .ok (f, rest)) :
    f.Name ≠ "" ∧ f.Path ≠ "" ∧ f.Template ≠ "" := by
  unfold readOneFile at h
  split at h
  · exact Except.noConfusion h
  next name s1 hname =>
    split at h
    · exact Except.noConfusion h
    next path s2 hpath =>
      split at h
      · exact Except.noConfusion h
      next tmpl s3 htmpl =>
        split at h
        · exact Except.noConfusion h
        next loc s4 hloc =>
          simp only [Except.ok.injEq, Prod.mk.injEq] at h
          obtain ⟨rfl, -⟩ := h
          exact ⟨scanToken_ne_empty hname, scanToken_ne_empty hpath,
            scanToken_ne_empty htmpl⟩

theorem readFilesLoop_fields (fuel : Nat) :
    ∀ (s : List Char) (acc fs : List File) (rest : List Char),
    readFilesLoop fuel s acc = .ok (fs, rest) →
    (∀ f ∈ acc, f.Name ≠ "" ∧ f.Path ≠ "" ∧ f.Template ≠ "") →
    ∀ f ∈ fs, f.Name ≠ "" ∧ f.Path ≠ "" ∧ f.Template ≠ "" := by
  induction fuel with
  | zero =>
    intro s acc fs rest h _
    exact Except.noConfusion h
  | succ fuel ih =>
    intro s acc fs rest h hacc
    simp only [readFilesLoop] at h
    split at h
    · exact Except.noConfusion h
    next f s1 hone =>
      split at h
      · exact Except.noConfusion h
      next ans s2 hans =>
        have hf := readOneFile_fields hone
        have hacc' : ∀ g ∈ acc ++ [f],
            g.Name ≠ "" ∧ g.Path ≠ "" ∧ g.Template ≠ "" := by
          intro g hg
          rcases List.mem_append.mp hg with hg | hg
          · exact hacc g hg
          · simp only [List.mem_singleton] at hg
            subst hg
            exact hf
        by_cases hy : ans = yes
        · rw [if_pos hy] at h
          exact ih _ _ _ _ h hacc'
        · rw [if_neg hy] at h
          by_cases hn : ans = no
          · rw [if_pos hn] at h
            simp only [Except.ok.injEq, Prod.mk.injEq] at h
            obtain ⟨rfl, -⟩ := h
            exact hacc'
          · rw [if_neg hn] at h
            exact ih _ _ _ _ h hacc'

/-- C6: every File record in a sequence returned by readFiles has non empty
name, path and template fields: each comes from one successfully scanned
token, and any read failure on any of the three aborts the run before a
record is appended. -/
theorem C6_file_fields_nonempty (s : List Char) (fs : List File)
    (rest : List Char) (h : readFiles s = .ok (fs, rest)) :
    ∀ f ∈ fs, f.Name ≠ "" ∧ f.Path ≠ "" ∧ f.Template ≠ "" :=
  readFilesLoop_fields _ _ _ _ _ h (by intro f hf; cases hf)

/-- C6 checked on a concrete one file interactive session, the one of the
spec, with the fields entered on their own lines and no local variables. -/
theorem C6_file_fields_nonempty_witness :
    readFiles ("a\nb\nc\nn\nn\n".data) = .ok ([⟨"a", "b", "c", none⟩], []) ∧
    ((⟨"a", "b", "c", none⟩ : File).Name ≠ "" ∧
     (⟨"a", "b", "c", none⟩ : File).Path ≠ "" ∧
     (⟨"a", "b", "c", none⟩ : File).Template ≠ "") :=
  ⟨rfl, C6_file_fields_nonempty ("a\nb\nc\nn\nn\n".data)
    [⟨"a", "b", "c", none⟩] [] rfl ⟨"a", "b", "c", none⟩ (by simp)⟩

/-- C8: at the add next file prompt, the negative token ends the cycle and
returns the accumulated sequence, the affirmative token repeats from the
first step, and any other token falls through the switch, so the loop
continues exactly as in the affirmative case, neither adding a file at that
point nor stopping. -/
theorem C8_next_file_answer (fuel : Nat) (s s1 s2 : List Char)
    (acc : List File) (f : File) (answer : String)
    (h1 : readOneFile s = .ok (f, s1))
    (h2 : scanToken s1 = .ok (answer, s2)) :
    (answer = yes →
      readFilesLoop (fuel + 1) s acc = readFilesLoop fuel s2 (acc ++ [f])) ∧
    (answer = no →
      readFilesLoop (fuel + 1) s acc = .ok (acc ++ [f], s2)) ∧
    (answer ≠ yes → answer ≠ no →
      readFilesLoop (fuel + 1) s acc = readFilesLoop fuel s2 (acc ++ [f])) := by
  refine ⟨fun hy => ?_, fun hn => ?_, fun hy hn => ?_⟩ <;>
    simp only [readFilesLoop, h1, h2]
  · rw [if_pos hy]
  · subst hn
    rw [if_neg (by decide), if_pos rfl]
  · rw [if_neg hy, if_neg hn]

/-- C8 checked at a concrete interactive session whose answer token is
neither control token. -/
theorem C8_next_file_answer_witness :
    readOneFile ("a\nb\nc\nn\nx\nd\ne\nf\nn\nn\n".data) =
      .ok (⟨"a", "b", "c", none⟩, "x\nd\ne\nf\nn\nn\n".data) ∧
    scanToken ("x\nd\ne\nf\nn\nn\n".data) =
      .ok ("x", "d\ne\nf\nn\nn\n".data) ∧
    ((("x" : String) = yes →
      readFilesLoop 2 ("a\nb\nc\nn\nx\nd\ne\nf\nn\nn\n".data) [] =
        readFilesLoop 1 ("d\ne\nf\nn\nn\n".data)
          ([] ++ [⟨"a", "b", "c", none⟩])) ∧
    (("x" : String) = no →
      readFilesLoop 2 ("a\nb\nc\nn\nx\nd\ne\nf\nn\nn\n".data) [] =
        .ok ([] ++ [⟨"a", "b", "c", none⟩], "d\ne\nf\nn\nn\n".data)) ∧
    (("x" : String) ≠ yes → ("x" : String) ≠ no →
      readFilesLoop 2 ("a\nb\nc\nn\nx\nd\ne\nf\nn\nn\n".data) [] =
        readFilesLoop 1 ("d\ne\nf\nn\nn\n".data)
          ([] ++ [⟨"a", "b", "c", none⟩]))) :=
  ⟨rfl, rfl, C8_next_file_answer 1 _ _ _ [] _ "x" rfl rfl⟩

/-- C10: in the serialized output a File collected with a nil local
mapping still carries its local field, emitted as null, because the field
has no omitempty marker and the mapping stays nil when no pair was ever
stored; the top level files and commands keys, which do carry omitempty,
are omitted entirely when their sequences are empty. -/
theorem C10_local_null_sequences_omitted (cfg : Config)
    (flds : List (String × JVal)) (f : File)
    (hc : encodeConfig cfg = some (.obj flds))
    (hfe : cfg.Files = []) (hce : cfg.Cmds = []) (hl : f.Local = none) :
    lookupField "files" flds = none ∧ lookupField "commands" flds = none ∧
    encodeFile f = some (.obj [("name", .str f.Name), ("path", .str f.Path),
      ("template", .str f.Template), ("local", .null)]) := by
  unfold encodeConfig at hc
  rw [hfe, hce] at hc
  split at hc
  · next gj fjs hg hf2 =>
    simp only [List.isEmpty_nil, if_true, List.append_nil,
      Option.some.injEq, JVal.obj.injEq] at hc
    subst hc
    refine ⟨?_, ?_, ?_⟩
    · simp only [lookupField]
      rw [if_neg (by decide)]
    · simp only [lookupField]
      rw [if_neg (by decide)]
    · unfold encodeFile
      rw [hl]
      rfl
  · exact Option.noConfusion hc

/-- C10 checked at a concrete document and file record. -/
theorem C10_local_null_sequences_omitted_witness :
    encodeConfig ⟨some [("x", Value.bool true)], [], []⟩ =
      some (.obj [("global", .obj [("x", .bool true)])]) ∧
    (lookupField "files" [("global", JVal.obj [("x", JVal.bool true)])] =
        none ∧
      lookupField "commands" [("global", JVal.obj [("x", JVal.bool true)])] =
        none ∧
      encodeFile ⟨"a", "b", "c", none⟩ =
        some (.obj [("name", .str "a"), ("path", .str "b"),
          ("template", .str "c"), ("local", .null)])) :=
  ⟨rfl, C10_local_null_sequences_omitted ⟨some [("x", Value.bool true)], [], []⟩
    [("global", JVal.obj [("x", JVal.bool true)])] ⟨"a", "b", "c", none⟩
    rfl rfl rfl rfl⟩

/-! Claim C9: the JSON round trip. -/

/-- Scalar whose dynamic type survives the JSON round trip: a boolean, a
string, or a finite float (the infinities and NaN cannot be serialized at
all, and an integer comes back as a float). -/
def scalarRoundTrips : Value → Bool
  | .bool _ => true
  | .str _ => true
  | .float (.finite _) => true
  | _ => false

/-- Mapping all of whose values keep their type through the round trip. -/
def varMapRoundTrips (m : VarMap) : Bool :=
  m.all (fun p => scalarRoundTrips p.2)

/-- Possibly nil mapping all of whose values keep their type. -/
def optMapRoundTrips : Option VarMap → Bool
  | none => true
  | some m => varMapRoundTrips m

/-- Document none of whose collected scalars is an integer, an infinity or
a NaN. -/
def configRoundTrips (c : Config) : Bool :=
  optMapRoundTrips c.Global && c.Files.all (fun f => optMapRoundTrips f.Local)

theorem decodeAny_encodeValue {v : Value} (h : scalarRoundTrips v = true) :
    (encodeValue v).bind decodeAny = some v := by
  cases v with
  | bool b => rfl
  | str s => rfl
  | int i => simp [scalarRoundTrips] at h
  | float f =>
    cases f with
    | finite q => rfl
    | posInf => simp [scalarRoundTrips] at h
    | negInf => simp [scalarRoundTrips] at h
    | nan => simp [scalarRoundTrips] at h

theorem decodeEntries_encodeEntries (m : VarMap)
    (h : varMapRoundTrips m = true) :
    (encodeEntries m).bind decodeEntries = some m := by
  induction m with
  | nil => rfl
  | cons p t ih =>
    obtain ⟨k, v⟩ := p
    simp only [varMapRoundTrips, List.all_cons, Bool.and_eq_true] at h
    have hv := decodeAny_encodeValue h.1
    have ht := ih (by simpa [varMapRoundTrips] using h.2)
    cases hev : encodeValue v with
    | none => rw [hev] at hv; simp at hv
    | some j =>
      cases het : encodeEntries t with
      | none => rw [het] at ht; simp at ht
      | some es =>
        rw [hev] at hv
        rw [het] at ht
        simp only [Option.some_bind] at hv ht
        simp only [encodeEntries, hev, het, Option.some_bind, decodeEntries,
          hv, ht]

theorem varMapRoundTrips_sort {m : VarMap} (h : varMapRoundTrips m = true) :
    varMapRoundTrips (sortVarMap m) = true := by
  have hperm := List.perm_insertionSort keyLe m
  rw [varMapRoundTrips, List.all_eq_true] at h ⊢
  intro p hp
  exact h p (hperm.mem_iff.mp hp)

theorem decodeOptMap_encodeOptMap (g : Option VarMap)
    (h : optMapRoundTrips g = true) :
    ∃ j, encodeOptMap g = some j ∧
      decodeOptMap (some j) = some (g.map sortVarMap) := by
  cases g with
  | none => exact ⟨.null, rfl, rfl⟩
  | some m =>
    have hs : varMapRoundTrips (sortVarMap m) = true := varMapRoundTrips_sort h
    have hrt := decodeEntries_encodeEntries (sortVarMap m) hs
    cases hee : encodeEntries (sortVarMap m) with
    | none => rw [hee] at hrt; simp at hrt
    | some es =>
      rw [hee] at hrt
      simp only [Option.some_bind] at hrt
      refine ⟨.obj es, ?_, ?_⟩
      · simp [encodeOptMap, hee]
      · simp [decodeOptMap, hrt, Option.map]

theorem decodeStringList_map (xs : List String) :
    decodeStringList (xs.map .str) = some xs := by
  induction xs with
  | nil => rfl
  | cons x t ih => simp [decodeStringList, ih]

theorem decodeCommand_encodeCommand (c : Command) :
    decodeCommand (encodeCommand c) = some c := by
  obtain ⟨n, args⟩ := c
  show Option.map (fun x => Command.mk n x)
    (decodeStringList (args.map JVal.str)) = some ⟨n, args⟩
  rw [decodeStringList_map]
  rfl

theorem decodeCommandList_map (cs : List Command) :
    decodeCommandList (cs.map encodeCommand) = some cs := by
  induction cs with
  | nil => rfl
  | cons c t ih =>
    simp [decodeCommandList, decodeCommand_encodeCommand, ih]

theorem decodeFile_encodeFile (f : File)
    (h : optMapRoundTrips f.Local = true) :
    ∃ j, encodeFile f = some j ∧ decodeFile j = some (normalizeFile f) := by
  obtain ⟨lj, hl1, hl2⟩ := decodeOptMap_encodeOptMap f.Local h
  refine ⟨.obj [("name", .str f.Name), ("path", .str f.Path),
    ("template", .str f.Template), ("local", lj)], ?_, ?_⟩
  · simp [encodeFile, hl1]
  · simp [decodeFile, lookupField, decodeStringField, hl2, normalizeFile]

theorem decodeFileList_encodeFiles (fs : List File)
    (h : fs.all (fun f => optMapRoundTrips f.Local) = true) :
    ∃ js, encodeFiles fs = some js ∧
      decodeFileList js = some (fs.map normalizeFile) := by
  induction fs with
  | nil => exact ⟨[], rfl, rfl⟩
  | cons f t ih =>
    simp only [List.all_cons, Bool.and_eq_true] at h
    obtain ⟨j, hj1, hj2⟩ := decodeFile_encodeFile f h.1
    obtain ⟨js, hjs1, hjs2⟩ := ih h.2
    refine ⟨j :: js, ?_, ?_⟩
    · simp [encodeFiles, hj1, hjs1]
    · simp [decodeFileList, hj2, hjs2]

theorem sortVarMap_idem (m : VarMap) :
    sortVarMap (sortVarMap m) = sortVarMap m :=
  List.Sorted.insertionSort_eq (List.sorted_insertionSort keyLe m)

theorem normalizeFile_idem (f : File) :
    normalizeFile (normalizeFile f) = normalizeFile f := by
  unfold normalizeFile
  cases f.Local with
  | none => rfl
  | some m => simp [Option.map, sortVarMap_idem]

theorem normalizeConfig_idem (c : Config) :
    normalizeConfig (normalizeConfig c) = normalizeConfig c := by
  unfold normalizeConfig
  refine congrArg₂ (Config.mk · · c.Cmds) ?_ ?_
  · cases c.Global with
    | none => rfl
    | some m => simp [Option.map, sortVarMap_idem]
  · simp only [List.map_map]
    exact List.map_congr_left (fun f _ => normalizeFile_idem f)

/-- C9 (amended): serializing a fully assembled Document and parsing it
back preserves the keys of the global and local mappings, the order of the
files and commands sequences, and every boolean, string and finite float
scalar with its dynamic type; an integer scalar however comes back as a
float, because json.Unmarshal stores every JSON number as a float64 behind
the interface type.  So for every document whose scalars are free of
integers (and of the unserializable infinities and NaN) the round trip
yields a structurally identical Document. -/
theorem C9_roundtrip (d : Config) (h : configRoundTrips d = true) :
    (encodeConfig d).bind decodeConfig = some (normalizeConfig d) ∧
    structEq d (normalizeConfig d) := by
  constructor
  · simp only [configRoundTrips, Bool.and_eq_true] at h
    obtain ⟨hg, hfs⟩ := h
    obtain ⟨gj, hg1, hg2⟩ := decodeOptMap_encodeOptMap d.Global hg
    obtain ⟨fjs, hf1, hf2⟩ := decodeFileList_encodeFiles d.Files hfs
    simp only [encodeConfig, hg1, hf1, Option.some_bind]
    by_cases hfe : d.Files.isEmpty
    · by_cases hc2 : d.Cmds.isEmpty
      · simp [hfe, hc2, decodeConfig, lookupField, decodeFilesField,
          decodeCommandsField, hg2, normalizeConfig,
          List.isEmpty_iff.mp hfe, List.isEmpty_iff.mp hc2]
      · simp [hfe, hc2, decodeConfig, lookupField, decodeFilesField,
          decodeCommandsField, hg2, decodeCommandList_map, normalizeConfig,
          List.isEmpty_iff.mp hfe]
    · by_cases hc2 : d.Cmds.isEmpty
      · simp [hfe, hc2, decodeConfig, lookupField, decodeFilesField,
          decodeCommandsField, hg2, hf2, normalizeConfig,
          List.isEmpty_iff.mp hc2]
      · simp [hfe, hc2, decodeConfig, lookupField, decodeFilesField,
          decodeCommandsField, hg2, hf2, decodeCommandList_map,
          normalizeConfig]
  · exact (normalizeConfig_idem d).symm

/-- C9 is false as stated: a collectible document holding the integer two
under x serializes to a JSON number, and parsing the document back yields
the float two instead, so the dynamic type of the scalar is not
preserved. -/
theorem C9_counterexample :
    collectConfig ("x 2\nn\na\nb\nc\nn\nn\nn\n".data) =
      .ok ⟨some [("x", Value.int 2)], [⟨"a", "b", "c", none⟩], []⟩ ∧
    (encodeConfig ⟨some [("x", Value.int 2)],
        [⟨"a", "b", "c", none⟩], []⟩).bind decodeConfig =
      some ⟨some [("x", Value.float (.finite 2))],
        [⟨"a", "b", "c", none⟩], []⟩ ∧
    ¬ structEq ⟨some [("x", Value.int 2)], [⟨"a", "b", "c", none⟩], []⟩
      ⟨some [("x", Value.float (.finite 2))], [⟨"a", "b", "c", none⟩], []⟩ :=
  ⟨rfl, rfl, by decide⟩

/-- C9 amended claim checked at a concrete document with boolean, string
and finite float scalars, a file and a command. -/
theorem C9_roundtrip_witness :
    configRoundTrips ⟨some [("b", Value.str "u"), ("a", Value.bool true),
        ("f", Value.float (.finite 2))],
      [⟨"a", "b", "c", none⟩], [⟨"ls", ["-a"]⟩]⟩ = true ∧
    ((encodeConfig ⟨some [("b", Value.str "u"), ("a", Value.bool true),
          ("f", Value.float (.finite 2))],
        [⟨"a", "b", "c", none⟩], [⟨"ls", ["-a"]⟩]⟩).bind decodeConfig =
      some (normalizeConfig ⟨some [("b", Value.str "u"),
          ("a", Value.bool true), ("f", Value.float (.finite 2))],
        [⟨"a", "b", "c", none⟩], [⟨"ls", ["-a"]⟩]⟩) ∧
    structEq ⟨some [("b", Value.str "u"), ("a", Value.bool true),
          ("f", Value.float (.finite 2))],
        [⟨"a", "b", "c", none⟩], [⟨"ls", ["-a"]⟩]⟩
      (normalizeConfig ⟨some [("b", Value.str "u"), ("a", Value.bool true),
          ("f", Value.float (.finite 2))],
        [⟨"a", "b", "c", none⟩], [⟨"ls", ["-a"]⟩]⟩)) :=
  ⟨by decide, C9_roundtrip _ (by decide)⟩

end GGConfig
